import Mathlib

set_option maxRecDepth 20000

/-!
Shallow embedding of the chunked translation pipeline of the epubtrad
repository: the chunk splitter, engine fallback and cache wrapper of
src/main.py, the rate limiter of src/main.py, and the priority queue of
src/plugins/queue_plugin.py.  Text is modeled as a list of characters;
network calls (GoogleTranslator, deepl) and the Redis backing store are
modeled as oracles so that the control flow of the Python code around them
can be stated and proved exactly.
-/

/-- ASCII whitespace recognised by Python str.strip (space, tab, newline,
carriage return, vertical tab, form feed). -/
def pyWs (c : Char) : Bool :=
  c == ' ' || c == '\t' || c == '\n' || c == '\r' || c == '\x0b' || c == '\x0c'

/-- Python s.strip(): remove whitespace from both ends of the string. -/
def strip (l : List Char) : List Char :=
  ((l.dropWhile pyWs).reverse.dropWhile pyWs).reverse

/-- Python texto.split(". ") from src/main.py line 330: split on the first
occurrence of the two-character separator, scanning left to right; a text
with no separator yields one segment, and the result is never empty. -/
def splitDotSpace : List Char → List (List Char)
  | [] => [[]]
  | [c] => [[c]]
  | a :: b :: rest =>
    if a = '.' ∧ b = ' ' then
      [] :: splitDotSpace rest
    else
      match splitDotSpace (b :: rest) with
      | [] => [[a]]
      | s :: ss => (a :: s) :: ss

/-- Joining segments back with the ". " separator (the inverse of
splitDotSpace, used only in proofs). -/
def joinDS : List (List Char) → List Char
  | [] => []
  | [s] => s
  | s :: ss => s ++ '.' :: ' ' :: joinDS ss

/-- The soft-limit accumulation loop of src/main.py lines 328-340: sentences
(each already carrying the restored ". ") are appended to a running buffer;
when the buffer plus the next sentence would exceed 3000 characters the
buffer is closed (stripped) as a chunk and the sentence starts a new buffer.
The trailing nonempty buffer is closed at the end. -/
def buildChunks : List (List Char) → List Char → List (List Char)
  | [], current => if current = [] then [] else [strip current]
  | s :: rest, current =>
    if (current ++ s).length > 3000 then
      if current = [] then buildChunks rest s
      else strip current :: buildChunks rest s
    else buildChunks rest (current ++ s)

/-- The hard-limit slicing of src/main.py line 346: successive fixed slices
of 2500 characters, chunk[i:i+2500] for i in range(0, len(chunk), 2500). -/
def slice2500 : List Char → List (List Char)
  | [] => []
  | c :: l => (c :: l).take 2500 :: slice2500 ((c :: l).drop 2500)
  termination_by l => l.length + 1
  decreasing_by
    simp only [List.length_drop, List.length_cons]
    omega

/-- The complete splitter embedded in traducir_texto_google
(src/main.py lines 327-349): soft-limit sentence packing followed by the
hard-limit pass that force-slices any chunk longer than 5000 characters. -/
def final_chunks (texto : List Char) : List (List Char) :=
  ((buildChunks ((splitDotSpace texto).map (fun s => s ++ ['.', ' '])) []).map
    (fun c => if c.length > 5000 then slice2500 c else [c])).flatten

/-- Relation expressing that the first string is obtained from the second by
deleting whitespace characters only, keeping every other character in order:
no non-whitespace character is lost, duplicated or reordered. -/
inductive WsSub : List Char → List Char → Prop
  | nil : WsSub [] []
  | keep (c : Char) {s t : List Char} : WsSub s t → WsSub (c :: s) (c :: t)
  | drop {c : Char} {s t : List Char} : pyWs c = true → WsSub s t → WsSub s (c :: t)

theorem wsSub_refl (l : List Char) : WsSub l l := by
  induction l with
  | nil => exact WsSub.nil
  | cons c l ih => exact WsSub.keep c ih

theorem wsSub_nil_left (l : List Char) (h : ∀ c ∈ l, pyWs c = true) : WsSub [] l := by
  induction l with
  | nil => exact WsSub.nil
  | cons c l ih =>
    exact WsSub.drop (h c (by simp)) (ih fun d hd => h d (by simp [hd]))

theorem wsSub_append {s₁ t₁ s₂ t₂ : List Char} (h₁ : WsSub s₁ t₁) (h₂ : WsSub s₂ t₂) :
    WsSub (s₁ ++ s₂) (t₁ ++ t₂) := by
  induction h₁ with
  | nil => exact h₂
  | keep c _ ih => exact WsSub.keep c ih
  | drop hc _ ih => exact WsSub.drop hc ih

theorem wsSub_of_eq_nil {t : List Char} (h : WsSub [] t) : ∀ c ∈ t, pyWs c = true := by
  generalize hs : ([] : List Char) = s at h
  induction h with
  | nil => intro c hc; cases hc
  | keep c _ _ => cases hs
  | drop hc h ih =>
    intro d hd
    cases hd with
    | head => exact hc
    | tail _ hd => exact ih hs d hd

theorem wsSub_inv_nil {s : List Char} (h : WsSub s []) : s = [] := by
  cases h; rfl

theorem wsSub_trans {a b c : List Char} (h₁ : WsSub a b) (h₂ : WsSub b c) : WsSub a c := by
  induction h₂ generalizing a with
  | nil => exact h₁
  | keep x h ih =>
    cases h₁ with
    | keep _ h' => exact WsSub.keep _ (ih h')
    | drop hx h' => exact WsSub.drop hx (ih h')
  | drop hx h ih => exact WsSub.drop hx (ih h₁)

theorem wsSub_dropWhile (l : List Char) : WsSub (l.dropWhile pyWs) l := by
  induction l with
  | nil => exact WsSub.nil
  | cons c l ih =>
    by_cases hc : pyWs c
    · rw [List.dropWhile_cons_of_pos hc]
      exact WsSub.drop hc ih
    · rw [List.dropWhile_cons_of_neg hc]
      exact wsSub_refl _

theorem wsSub_reverse {s t : List Char} (h : WsSub s t) : WsSub s.reverse t.reverse := by
  induction h with
  | nil => exact WsSub.nil
  | keep c h ih =>
    simpa using wsSub_append ih (wsSub_refl [c])
  | drop hc h ih =>
    simpa using wsSub_append ih (WsSub.drop hc WsSub.nil)

theorem strip_wsSub (l : List Char) : WsSub (strip l) l := by
  unfold strip
  have h₁ : WsSub (l.dropWhile pyWs) l := wsSub_dropWhile l
  have h₂ : WsSub ((l.dropWhile pyWs).reverse.dropWhile pyWs) (l.dropWhile pyWs).reverse :=
    wsSub_dropWhile _
  have h₃ := wsSub_reverse h₂
  rw [List.reverse_reverse] at h₃
  exact wsSub_trans h₃ h₁

theorem splitDotSpace_ne_nil (l : List Char) : splitDotSpace l ≠ [] := by
  induction l using splitDotSpace.induct with
  | case1 => simp [splitDotSpace]
  | case2 c => simp [splitDotSpace]
  | case3 a b rest h ih =>
    simp only [splitDotSpace, if_pos h]
    simp
  | case4 a b rest h hnil ih => exact absurd hnil ih
  | case5 a b rest h s ss hs ih =>
    simp only [splitDotSpace, if_neg h, hs]
    simp

theorem joinDS_cons_cons (a : Char) (s : List Char) (ss : List (List Char)) :
    joinDS ((a :: s) :: ss) = a :: joinDS (s :: ss) := by
  cases ss with
  | nil => rfl
  | cons t ts => rfl

theorem joinDS_split (l : List Char) : joinDS (splitDotSpace l) = l := by
  induction l using splitDotSpace.induct with
  | case1 => rfl
  | case2 c => rfl
  | case3 a b rest h ih =>
    obtain ⟨ha, hb⟩ := h
    subst ha hb
    simp only [splitDotSpace, if_pos (And.intro rfl rfl)]
    cases hs : splitDotSpace rest with
    | nil => exact absurd hs (splitDotSpace_ne_nil rest)
    | cons s ss =>
      rw [hs] at ih
      show joinDS ([] :: s :: ss) = '.' :: ' ' :: rest
      show ([] : List Char) ++ '.' :: ' ' :: joinDS (s :: ss) = '.' :: ' ' :: rest
      rw [List.nil_append, ih]
  | case4 a b rest h hnil ih => exact absurd hnil (splitDotSpace_ne_nil _)
  | case5 a b rest h s ss hs ih =>
    simp only [splitDotSpace, if_neg h, hs]
    rw [hs] at ih
    rw [joinDS_cons_cons, ih]

/-- Appending the restored ". " to every segment and concatenating yields the
original text followed by one extra ". " (the delimiter restored after the
final segment, src/main.py line 332). -/
theorem flatten_sentences (l : List Char) :
    ((splitDotSpace l).map (fun s => s ++ ['.', ' '])).flatten = l ++ ['.', ' '] := by
  have key : ∀ ss : List (List Char), ss ≠ [] →
      (ss.map (fun s => s ++ ['.', ' '])).flatten = joinDS ss ++ ['.', ' '] := by
    intro ss
    induction ss with
    | nil => intro h; exact absurd rfl h
    | cons s ts ih =>
      intro _
      cases ts with
      | nil => simp [joinDS]
      | cons t ts' =>
        have ihe := ih (by simp)
        show (s ++ ['.', ' ']) ++ ((t :: ts').map (fun s => s ++ ['.', ' '])).flatten =
          (s ++ '.' :: ' ' :: joinDS (t :: ts')) ++ ['.', ' ']
        rw [ihe]
        simp
  rw [key _ (splitDotSpace_ne_nil l), joinDS_split]

theorem buildChunks_wsSub (ss : List (List Char)) (current : List Char) :
    WsSub (buildChunks ss current).flatten (current ++ ss.flatten) := by
  induction ss generalizing current with
  | nil =>
    by_cases hc : current = []
    · simp [buildChunks, hc, WsSub.nil]
    · simp only [buildChunks, if_neg hc, List.flatten_cons, List.flatten_nil,
        List.append_nil]
      simpa using strip_wsSub current
  | cons s rest ih =>
    simp only [buildChunks, List.flatten_cons]
    by_cases hlen : (current ++ s).length > 3000
    · rw [if_pos hlen]
      by_cases hc : current = []
      · rw [if_pos hc, hc]
        simpa using ih s
      · rw [if_neg hc]
        simp only [List.flatten_cons]
        have h₁ : WsSub (strip current) current := strip_wsSub current
        have h₂ := ih s
        have := wsSub_append h₁ h₂
        simpa [List.append_assoc] using this
    · rw [if_neg hlen]
      have := ih (current ++ s)
      simpa [List.append_assoc] using this

theorem slice2500_flatten (l : List Char) : (slice2500 l).flatten = l := by
  induction l using slice2500.induct with
  | case1 => simp [slice2500]
  | case2 c l ih =>
    rw [slice2500]
    simp only [List.flatten_cons, ih, List.take_append_drop]

theorem final_chunks_flatten (texto : List Char) :
    (final_chunks texto).flatten =
      (buildChunks ((splitDotSpace texto).map (fun s => s ++ ['.', ' '])) []).flatten := by
  unfold final_chunks
  generalize buildChunks ((splitDotSpace texto).map (fun s => s ++ ['.', ' '])) [] = chunks
  induction chunks with
  | nil => rfl
  | cons c rest ih =>
    simp only [List.map_cons, List.flatten_cons, List.flatten_append, ih]
    by_cases h : c.length > 5000
    · rw [if_pos h, slice2500_flatten]
    · rw [if_neg h]
      simp

/-- Core reassembly fact shared by several claims: concatenating the chunks
of the splitter reproduces the input followed by the restored ". ", except
that whitespace characters may be deleted (each chunk is stripped at both
ends); no non-whitespace character is lost, duplicated or reordered. -/
theorem final_chunks_rejoin (texto : List Char) :
    WsSub (final_chunks texto).flatten (texto ++ ['.', ' ']) := by
  rw [final_chunks_flatten]
  have h := buildChunks_wsSub ((splitDotSpace texto).map (fun s => s ++ ['.', ' '])) []
  rw [List.nil_append] at h
  rw [flatten_sentences] at h
  exact h

/-- C1 (corrected): concatenating the chunks produced by the splitter of
traducir_texto_google in output order yields the input text followed by the
restored ". " delimiter, except that whitespace characters may additionally
be deleted at the ends of each chunk (every chunk is stripped, src/main.py
lines 335 and 340); no non-whitespace character is lost, duplicated or
reordered. -/
theorem c1_split_rejoin (texto : List Char) :
    WsSub (final_chunks texto).flatten (texto ++ ['.', ' ']) :=
  final_chunks_rejoin texto

/-- C1 counterexample to the claim as stated: for the input " x" the
concatenation of the chunks is "x." — it equals neither the input nor the
input with the restored ". " delimiter appended, because the leading space
(a character that is not part of any ". " delimiter) has been deleted by
stripping. -/
theorem c1_counterexample :
    (final_chunks [' ', 'x']).flatten = ['x', '.'] ∧
      (['x', '.'] : List Char) ≠ [' ', 'x'] ++ ['.', ' '] ∧
      (['x', '.'] : List Char) ≠ [' ', 'x'] := by
  refine ⟨by decide, by decide, by decide⟩

theorem slice2500_mem_length {l c : List Char} (h : c ∈ slice2500 l) : c.length ≤ 2500 := by
  induction l using slice2500.induct with
  | case1 => simp [slice2500] at h
  | case2 x l ih =>
    rw [slice2500] at h
    cases h with
    | head => exact List.length_take_le 2500 _
    | tail _ h => exact ih h

/-- C2 (confirmed): every chunk produced by the splitter embedded in
traducir_texto_google has length at most 5000 characters, the hard limit of
src/main.py line 345: a chunk at most 5000 long is forwarded unchanged and a
longer one is replaced by fixed slices of at most 2500 characters. -/
theorem c2_hard_limit (texto : List Char) (c : List Char)
    (h : c ∈ final_chunks texto) : c.length ≤ 5000 := by
  unfold final_chunks at h
  rw [List.mem_flatten] at h
  obtain ⟨l, hl, hc⟩ := h
  rw [List.mem_map] at hl
  obtain ⟨ch, _, rfl⟩ := hl
  by_cases hb : ch.length > 5000
  · rw [if_pos hb] at hc
    exact le_trans (slice2500_mem_length hc) (by omega)
  · rw [if_neg hb] at hc
    rw [List.mem_singleton] at hc
    subst hc
    omega

/-- Witness for C2 at a concrete input: "hi" yields the single chunk "hi."
of length 3 ≤ 5000. -/
theorem c2_hard_limit_witness :
    (['h', 'i', '.'] ∈ final_chunks ['h', 'i']) ∧ (['h', 'i', '.'] : List Char).length ≤ 5000 :=
  ⟨by decide, c2_hard_limit ['h', 'i'] ['h', 'i', '.'] (by decide)⟩

/-- traducir_texto_google (src/main.py lines 324-362): split the text and
translate each chunk through the GoogleTranslator oracle g; a call that
raises is modeled by g returning none, in which case the original chunk is
kept (line 358); the translated pieces are joined with no separator
(line 359). The Lean function is total because every exception of a chunk
call is caught inside the loop, and the splitting itself is pure. -/
def traducir_texto_google (g : List Char → Option (List Char)) (texto : List Char) :
    List Char :=
  ((final_chunks texto).map (fun c => (g c).getD c)).flatten

/-- traducir_texto_engine (src/main.py lines 308-322): with engine "deepl"
and a configured DEEPL_API_KEY the deepl oracle is called; if that call
raises (none) the except branch falls back to traducir_texto_google because
the engine differs from "google". Any other engine value, or a missing key,
goes directly to traducir_texto_google. -/
def traducir_texto_engine (deeplO : List Char → Option (List Char)) (deeplKey : Bool)
    (g : List Char → Option (List Char)) (texto : List Char) (engine : String) :
    List Char :=
  if engine = "deepl" ∧ deeplKey = true then
    match deeplO texto with
    | some r => r
    | none => if engine ≠ "google" then traducir_texto_google g texto else texto
  else traducir_texto_google g texto

/-- C3 (corrected): a request for the deepl engine without credentials goes
straight to the default Google engine, and a deepl call that raises falls
back to the Google engine; when every Google chunk call fails, no exception
propagates (the function is total) and each chunk keeps its original text,
so the reassembled result is the original text up to the restored ". "
delimiter and per-chunk whitespace stripping — not the original text
verbatim. -/
theorem c3_engine_fallback (deeplO : List Char → Option (List Char)) (deeplKey : Bool)
    (g : List Char → Option (List Char)) (texto : List Char) :
    (traducir_texto_engine deeplO false g texto "deepl" = traducir_texto_google g texto) ∧
      (deeplO texto = none →
        traducir_texto_engine deeplO true g texto "deepl" = traducir_texto_google g texto) ∧
      ((∀ c, g c = none) →
        WsSub (traducir_texto_engine deeplO deeplKey g texto "google") (texto ++ ['.', ' '])) := by
  refine ⟨?_, ?_, ?_⟩
  · simp [traducir_texto_engine]
  · intro h
    simp [traducir_texto_engine, h]
  · intro hg
    have hne : ¬(("google" : String) = "deepl" ∧ deeplKey = true) := by
      intro hcontra
      exact absurd hcontra.1 (by decide)
    rw [traducir_texto_engine, if_neg hne]
    unfold traducir_texto_google
    simp only [hg, Option.getD_none]
    rw [List.map_id']
    exact final_chunks_rejoin texto

/-- C3 counterexample to the claim as stated: with every Google chunk call
failing, the input "hi" comes back as "hi." (the chunk with its restored
delimiter), not as the original text "hi" unchanged. -/
theorem c3_counterexample :
    traducir_texto_engine (fun _ => none) true (fun _ => none) ['h', 'i'] "google" =
        ['h', 'i', '.'] ∧
      (['h', 'i', '.'] : List Char) ≠ ['h', 'i'] :=
  ⟨by decide, by decide⟩

/-- Witness for C3 at concrete inputs: a raising deepl oracle falls back to
the Google path, and with an all-failing Google oracle the result of "hi" is
a whitespace-only-drop subsequence of the input plus the restored ". ". -/
theorem c3_engine_fallback_witness :
    (traducir_texto_engine (fun _ => none) true (fun _ => none) ['h', 'i'] "deepl" =
        traducir_texto_google (fun _ => none) ['h', 'i']) ∧
      WsSub (traducir_texto_engine (fun _ => none) true (fun _ => none) ['h', 'i'] "google")
        (['h', 'i'] ++ ['.', ' ']) := by
  obtain ⟨h1, h2, h3⟩ :=
    c3_engine_fallback (fun _ => none) true (fun _ => none) ['h', 'i']
  exact ⟨h2 rfl, h3 (fun c => rfl)⟩

/-- The in-process fallback store MockRedis (src/main.py lines 112-121):
a plain in-memory dictionary. get returns the stored value; setex stores the
value but ignores its time argument entirely, and the state keeps no clock
or per-entry timestamp of any kind, so no notion of expiry exists. -/
structure MockRedis (κ : Type) where
  data : κ → Option (List Char)

/-- MockRedis.get (src/main.py line 115): plain dictionary lookup. -/
def MockRedis.get {κ : Type} (r : MockRedis κ) (key : κ) : Option (List Char) :=
  r.data key

set_option linter.unusedVariables false in
/-- MockRedis.setex (src/main.py line 117): dictionary assignment; the time
parameter is received and dropped. -/
def MockRedis.setex {κ : Type} [DecidableEq κ] (r : MockRedis κ) (key : κ) (time : Nat)
    (value : List Char) : MockRedis κ :=
  { data := fun k => if k = key then some value else r.data k }

/-- C9 (corrected): in the in-process fallback map the TTL argument of setex
is ignored — storing with any two TTL values produces identical states — and
a lookup of a stored key always returns the stored value, no matter how much
time has passed (the state carries no time information at all), while other
keys are untouched. Expiry after 24 hours can only come from an external
Redis backing store, which lives outside this repository. -/
theorem c9_fallback_never_expires {κ : Type} [DecidableEq κ] (r : MockRedis κ) (key : κ)
    (t₁ t₂ : Nat) (v : List Char) :
    r.setex key t₁ v = r.setex key t₂ v ∧
      (r.setex key t₁ v).get key = some v ∧
      ∀ k, k ≠ key → (r.setex key t₁ v).get k = r.get k := by
  refine ⟨rfl, ?_, ?_⟩
  · simp [MockRedis.get, MockRedis.setex]
  · intro k hk
    simp [MockRedis.get, MockRedis.setex, hk]

/-- C9 counterexample to the claim as stated: a value stored in the fallback
map with the 86400-second TTL is still returned by get — the model state has
no clock, so the same lookup is what runs after any delay, 24 hours
included; the lookup is never a miss. -/
theorem c9_counterexample :
    ((MockRedis.mk (fun _ => none) : MockRedis Nat).setex 0 86400 ['h']).get 0 =
        some ['h'] ∧
      (some ['h'] : Option (List Char)) ≠ none := by
  refine ⟨by simp [MockRedis.get, MockRedis.setex], by simp⟩

/-- Witness for C9 at concrete inputs. -/
theorem c9_fallback_never_expires_witness :
    ((MockRedis.mk (fun _ => none) : MockRedis Nat).setex 0 86400 ['h']).get 1 =
      (MockRedis.mk (fun _ => none) : MockRedis Nat).get 1 :=
  (c9_fallback_never_expires (MockRedis.mk (fun _ => none)) 0 86400 3600 ['h']).2.2 1
    (by decide)

/-- get_cache_key (src/main.py lines 287-290): a stable fingerprint over
(text, source, target, engine). The md5 hex digest of the joined content
string is modeled by the tuple itself, which identifies exactly the same
four inputs (md5 collisions are disregarded). -/
def get_cache_key (texto : List Char) (source target engine : String) :
    List Char × String × String × String := (texto, source, target, engine)

/-- A cache backing store as seen by traducir_con_cache: get and setex may
raise, which is modeled by Except.error, mirroring a real network-backed
Redis client. -/
structure CacheBackend where
  get : List Char × String × String × String → Except Unit (Option (List Char))
  setex : List Char × String × String × String → Nat → List Char → Except Unit Unit

/-- Python truthiness of the value returned by redis get on line 299: None
and the empty string are falsy and fall through to re-translation. -/
def truthy : Option (List Char) → Bool
  | none => false
  | some c => !c.isEmpty

/-- traducir_con_cache (src/main.py lines 292-306): empty-after-strip input
returns "" at once; otherwise the cache is consulted. The get call on
line 298 and the setex call on line 305 are not wrapped in any try/except,
so a raising store call propagates out of the function. On a miss the engine
translation runs; a nonempty result is stored with a 24-hour TTL and then
returned. -/
def traducir_con_cache (C : CacheBackend) (deeplO : List Char → Option (List Char))
    (deeplKey : Bool) (g : List Char → Option (List Char)) (texto : List Char)
    (source target engine : String) : Except Unit (List Char) :=
  if strip texto = [] then Except.ok [] else
  match C.get (get_cache_key texto source target engine) with
  | Except.error e => Except.error e
  | Except.ok cached =>
    if truthy cached then Except.ok (cached.getD [])
    else
      if traducir_texto_engine deeplO deeplKey g texto engine = [] then
        Except.ok (traducir_texto_engine deeplO deeplKey g texto engine)
      else
        match C.setex (get_cache_key texto source target engine) 86400
            (traducir_texto_engine deeplO deeplKey g texto engine) with
        | Except.error e => Except.error e
        | Except.ok _ => Except.ok (traducir_texto_engine deeplO deeplKey g texto engine)

/-- C6 (corrected): cache failures in traducir_con_cache are fatal, not
swallowed — a raising get propagates out instead of degrading to a miss, and
a raising setex after a successful translation propagates out instead of
still returning the result; only when both store calls succeed does a miss
lead to the engine translation being returned. -/
theorem c6_cache_failure_propagates (C : CacheBackend)
    (deeplO : List Char → Option (List Char)) (deeplKey : Bool)
    (g : List Char → Option (List Char)) (texto : List Char)
    (source target engine : String) (e : Unit) :
    (strip texto ≠ [] →
        C.get (get_cache_key texto source target engine) = Except.error e →
        traducir_con_cache C deeplO deeplKey g texto source target engine =
          Except.error e) ∧
      (strip texto ≠ [] →
        C.get (get_cache_key texto source target engine) = Except.ok none →
        traducir_texto_engine deeplO deeplKey g texto engine ≠ [] →
        C.setex (get_cache_key texto source target engine) 86400
            (traducir_texto_engine deeplO deeplKey g texto engine) = Except.ok () →
        traducir_con_cache C deeplO deeplKey g texto source target engine =
          Except.ok (traducir_texto_engine deeplO deeplKey g texto engine)) ∧
      (strip texto ≠ [] →
        C.get (get_cache_key texto source target engine) = Except.ok none →
        traducir_texto_engine deeplO deeplKey g texto engine ≠ [] →
        C.setex (get_cache_key texto source target engine) 86400
            (traducir_texto_engine deeplO deeplKey g texto engine) = Except.error e →
        traducir_con_cache C deeplO deeplKey g texto source target engine =
          Except.error e) := by
  refine ⟨?_, ?_, ?_⟩
  · intro hne hget
    rw [traducir_con_cache, if_neg hne, hget]
  · intro hne hget hres hset
    rw [traducir_con_cache, if_neg hne, hget]
    show (if truthy none then _ else _) = _
    rw [if_neg (by simp [truthy]), if_neg hres, hset]
  · intro hne hget hres hset
    rw [traducir_con_cache, if_neg hne, hget]
    show (if truthy none then _ else _) = _
    rw [if_neg (by simp [truthy]), if_neg hres, hset]

/-- C6 counterexample to the claim as stated: with a backing store whose get
raises, the translation of "h" is not performed-and-returned — the call
evaluates to the propagated error, not to any successful result. -/
theorem c6_counterexample :
    traducir_con_cache ⟨fun _ => Except.error (), fun _ _ _ => Except.ok ()⟩
        (fun _ => none) false (fun _ => none) ['h'] "en" "es" "google" =
        Except.error () ∧
      ∀ r : List Char, (Except.error () : Except Unit (List Char)) ≠ Except.ok r := by
  refine ⟨rfl, fun r h => by cases h⟩

/-- Witness for C6 at concrete inputs: with a store whose calls succeed, a
miss on "h" returns the engine translation. -/
theorem c6_cache_failure_propagates_witness :
    traducir_con_cache ⟨fun _ => Except.ok none, fun _ _ _ => Except.ok ()⟩
        (fun _ => none) false (fun _ => none) ['h'] "en" "es" "google" =
      Except.ok (traducir_texto_engine (fun _ => none) false (fun _ => none) ['h'] "google") := by
  obtain ⟨h1, h2, h3⟩ :=
    c6_cache_failure_propagates ⟨fun _ => Except.ok none, fun _ _ _ => Except.ok ()⟩
      (fun _ => none) false (fun _ => none) ['h'] "en" "es" "google" ()
  exact h2 (by decide) rfl (by decide) rfl

/-- check_rate_limit (src/main.py lines 471-478): last_usage maps a user id
to the time of that user's last allowed call; a call less than 60 seconds
(timedelta(minutes=1)) after it returns False without touching the state,
and any other call — including a first call — records now and returns True.
Clock readings are modeled as integers counting seconds. -/
def check_rate_limit (last_usage : Nat → Option Int) (usuario_id : Nat) (now : Int) :
    Bool × (Nat → Option Int) :=
  match last_usage usuario_id with
  | some prev =>
    if now - prev < 60 then (false, last_usage)
    else (true, fun u => if u = usuario_id then some now else last_usage u)
  | none => (true, fun u => if u = usuario_id then some now else last_usage u)

/-- C5 (confirmed): a call less than 60 seconds after the submitter's last
allowed call returns false and leaves the whole table unchanged; a call at
least 60 seconds after it, or a first call, returns true and records the new
time; entries of other submitters are never modified, and the verdict for a
submitter depends only on that submitter's own entry. -/
theorem c5_rate_limiter (last_usage : Nat → Option Int) (usuario_id : Nat)
    (now prev : Int) :
    (last_usage usuario_id = some prev → now - prev < 60 →
        check_rate_limit last_usage usuario_id now = (false, last_usage)) ∧
      (last_usage usuario_id = some prev → 60 ≤ now - prev →
        (check_rate_limit last_usage usuario_id now).1 = true ∧
          (check_rate_limit last_usage usuario_id now).2 usuario_id = some now) ∧
      (last_usage usuario_id = none →
        (check_rate_limit last_usage usuario_id now).1 = true ∧
          (check_rate_limit last_usage usuario_id now).2 usuario_id = some now) ∧
      (∀ u, u ≠ usuario_id →
        (check_rate_limit last_usage usuario_id now).2 u = last_usage u) ∧
      (∀ other : Nat → Option Int, other usuario_id = last_usage usuario_id →
        (check_rate_limit other usuario_id now).1 =
          (check_rate_limit last_usage usuario_id now).1) := by
  refine ⟨?_, ?_, ?_, ?_, ?_⟩
  · intro h hlt
    simp only [check_rate_limit, h, if_pos hlt]
  · intro h hge
    simp only [check_rate_limit, h, if_neg (by omega : ¬ now - prev < 60)]
    exact ⟨by simp, by simp⟩
  · intro h
    simp only [check_rate_limit, h]
    exact ⟨by simp, by simp⟩
  · intro u hu
    unfold check_rate_limit
    cases h : last_usage usuario_id with
    | none => simp [hu]
    | some prev' =>
      by_cases hlt : now - prev' < 60
      · simp [hlt]
      · simp [hlt, hu]
  · intro other hother
    simp only [check_rate_limit, hother]
    cases last_usage usuario_id with
    | none => rfl
    | some prev' =>
      by_cases hlt : now - prev' < 60
      · simp [hlt]
      · simp [hlt]

/-- Witness for C5 at concrete inputs: with user 1 last allowed at time 0, a
call at time 30 is rejected with the table unchanged, a call at time 60 is
allowed, and a call by user 2 leaves the entry of user 1 untouched. -/
theorem c5_rate_limiter_witness :
    check_rate_limit (fun u => if u = 1 then some (0 : Int) else none) 1 30 =
        (false, fun u => if u = 1 then some (0 : Int) else none) ∧
      (check_rate_limit (fun u => if u = 1 then some (0 : Int) else none) 1 60).1 = true ∧
      (check_rate_limit (fun u => if u = 1 then some (0 : Int) else none) 2 5).2 1 =
        some (0 : Int) := by
  obtain ⟨h1, _, _, _, _⟩ :=
    c5_rate_limiter (fun u => if u = 1 then some (0 : Int) else none) 1 30 0
  obtain ⟨_, h2, _, _, _⟩ :=
    c5_rate_limiter (fun u => if u = 1 then some (0 : Int) else none) 1 60 0
  obtain ⟨_, _, _, h4, _⟩ :=
    c5_rate_limiter (fun u => if u = 1 then some (0 : Int) else none) 2 5 0
  refine ⟨h1 (by simp) (by decide), (h2 (by simp) (by decide)).1, ?_⟩
  exact (h4 1 (by decide)).trans (by simp)

/-- QueueItem (src/plugins/queue_plugin.py lines 15-30). The created_at,
started_at and completed_at fields hold datetime.now().isoformat() strings
in the source; lexicographic comparison of equal-format ISO timestamp
strings agrees with chronological order, so they are modeled as natural
number clock readings. The float progress field is modeled as a rational. -/
structure QueueItem where
  id : String
  user_id : Nat
  file_path : String
  file_size : Nat
  priority : Nat
  status : String
  created_at : Nat
  started_at : Option Nat := none
  completed_at : Option Nat := none
  progress : Rat := 0
  result_path : Option String := none
  error_msg : Option String := none
  estimated_time : Option Nat := none
  deriving DecidableEq

/-- The sort key of src/plugins/queue_plugin.py line 90,
key=lambda x: (-x.priority, x.created_at): keyLE a b states that a may sit
before b — strictly higher priority first, and older created_at first on
equal priority. -/
def keyLE (a b : QueueItem) : Prop :=
  b.priority < a.priority ∨ (a.priority = b.priority ∧ a.created_at ≤ b.created_at)

instance (a b : QueueItem) : Decidable (keyLE a b) := by
  unfold keyLE
  infer_instance

theorem keyLE_refl (a : QueueItem) : keyLE a a := by
  unfold keyLE
  omega

theorem keyLE_total (a b : QueueItem) : keyLE a b ∨ keyLE b a := by
  unfold keyLE
  omega

theorem keyLE_trans {a b c : QueueItem} (h₁ : keyLE a b) (h₂ : keyLE b c) : keyLE a c := by
  unfold keyLE at h₁ h₂ ⊢
  omega

/-- Insertion step of the insertion sort used to model line 90: the element
is placed before the first entry that it must strictly precede, hence after
every entry it ties with. -/
def insQueue (x : QueueItem) : List QueueItem → List QueueItem
  | [] => [x]
  | y :: ys => if keyLE x y then x :: y :: ys else y :: insQueue x ys

/-- The sort of src/plugins/queue_plugin.py line 90,
self.queue.sort(key=lambda x: (-x.priority, x.created_at)). Python's sort is
stable, and every stable sort with respect to this total preorder computes
the same list; it is modeled as stable insertion sort. -/
def sortQueue : List QueueItem → List QueueItem
  | [] => []
  | x :: xs => insQueue x (sortQueue xs)

/-- add_to_queue (src/plugins/queue_plugin.py lines 66-97): the new item is
appended and the whole queue is re-sorted by (priority descending,
created_at ascending); since the appended item is last, a stable sort
places it after every item it ties with. -/
def add_to_queue (q : List QueueItem) (it : QueueItem) : List QueueItem :=
  sortQueue (q ++ [it])

/-- The dispatch choice of process_queue (src/plugins/queue_plugin.py lines
117-125): pending_items keeps the entries with status "queued" in queue
order and the dispatched item is pending_items[0]. -/
def next_item (q : List QueueItem) : Option QueueItem :=
  (q.filter fun it => it.status == "queued").head?

theorem mem_insQueue {a x : QueueItem} {l : List QueueItem} :
    a ∈ insQueue x l ↔ a = x ∨ a ∈ l := by
  induction l with
  | nil => simp [insQueue]
  | cons y ys ih =>
    by_cases h : keyLE x y
    · simp [insQueue, if_pos h]
    · simp only [insQueue, if_neg h, List.mem_cons, ih]
      tauto

theorem pairwise_insQueue {x : QueueItem} {l : List QueueItem}
    (h : List.Pairwise keyLE l) : List.Pairwise keyLE (insQueue x l) := by
  induction l with
  | nil => simp [insQueue]
  | cons y ys ih =>
    rw [List.pairwise_cons] at h
    obtain ⟨hy, hys⟩ := h
    by_cases hk : keyLE x y
    · rw [insQueue, if_pos hk]
      refine List.Pairwise.cons ?_ (List.Pairwise.cons hy hys)
      intro b hb
      cases hb with
      | head => exact hk
      | tail _ hb => exact keyLE_trans hk (hy b hb)
    · rw [insQueue, if_neg hk]
      have hxy : keyLE y x := (keyLE_total x y).resolve_left hk
      refine List.Pairwise.cons ?_ (ih hys)
      intro b hb
      rw [mem_insQueue] at hb
      cases hb with
      | inl hb => exact hb ▸ hxy
      | inr hb => exact hy b hb

theorem pairwise_sortQueue (l : List QueueItem) : List.Pairwise keyLE (sortQueue l) := by
  induction l with
  | nil => exact List.Pairwise.nil
  | cons x xs ih => exact pairwise_insQueue ih

/-- Where a stable sort actually puts an element that was appended last:
after every entry that ties with or precedes it. -/
def insAfter (x : QueueItem) : List QueueItem → List QueueItem
  | [] => [x]
  | y :: ys => if keyLE y x then y :: insAfter x ys else x :: y :: ys

theorem insQueue_eq_cons {x : QueueItem} {l : List QueueItem}
    (h : ∀ hd tl, l = hd :: tl → keyLE x hd) : insQueue x l = x :: l := by
  cases l with
  | nil => rfl
  | cons y ys => rw [insQueue, if_pos (h y ys rfl)]

theorem insAfter_eq_cons {x : QueueItem} {l : List QueueItem}
    (h : ∀ hd tl, l = hd :: tl → ¬ keyLE hd x) : insAfter x l = x :: l := by
  cases l with
  | nil => rfl
  | cons y ys => rw [insAfter, if_neg (h y ys rfl)]

/-- On an already sorted queue, stable-sorting after appending one element
is exactly the stable insertion of that element. -/
theorem sortQueue_append_singleton {q : List QueueItem} (x : QueueItem)
    (hq : List.Pairwise keyLE q) : sortQueue (q ++ [x]) = insAfter x q := by
  induction q with
  | nil => rfl
  | cons e rest ih =>
    rw [List.pairwise_cons] at hq
    obtain ⟨he, hrest⟩ := hq
    rw [List.cons_append]
    show insQueue e (sortQueue (rest ++ [x])) = insAfter x (e :: rest)
    rw [ih hrest]
    by_cases hke : keyLE e x
    · rw [insAfter, if_pos hke]
      apply insQueue_eq_cons
      intro hd tl hhd
      cases rest with
      | nil =>
        rw [show insAfter x [] = [x] from rfl] at hhd
        injection hhd with h1 h2
        subst h1
        exact hke
      | cons r rs =>
        rw [insAfter] at hhd
        by_cases hkr : keyLE r x
        · rw [if_pos hkr] at hhd
          injection hhd with h1 h2
          subst h1
          exact he r (by simp)
        · rw [if_neg hkr] at hhd
          injection hhd with h1 h2
          subst h1
          exact hke
    · have hstop : ∀ hd tl, rest = hd :: tl → ¬ keyLE hd x := by
        intro hd tl hhd hcontra
        exact hke (keyLE_trans (he hd (by simp [hhd])) hcontra)
      rw [insAfter_eq_cons hstop]
      rw [insAfter, if_neg hke]
      rw [insQueue, if_neg hke]
      congr 1
      apply insQueue_eq_cons
      intro hd tl hhd
      exact he hd (by simp [hhd])

theorem insAfter_decomp (x : QueueItem) (l : List QueueItem) :
    ∃ u v, insAfter x l = u ++ x :: v ∧ ∀ y ∈ u, keyLE y x := by
  induction l with
  | nil => exact ⟨[], [], rfl, by simp⟩
  | cons y ys ih =>
    by_cases hk : keyLE y x
    · obtain ⟨u, v, hu, hall⟩ := ih
      refine ⟨y :: u, v, ?_, ?_⟩
      · rw [insAfter, if_pos hk, hu]
        rfl
      · intro z hz
        cases hz with
        | head => exact hk
        | tail _ hz => exact hall z hz
    · refine ⟨[], y :: ys, ?_, by simp⟩
      rw [insAfter, if_neg hk]
      rfl

theorem insAfter_append {x : QueueItem} {A l : List QueueItem}
    (h : ∀ y ∈ A, keyLE y x) : insAfter x (A ++ l) = A ++ insAfter x l := by
  induction A with
  | nil => rfl
  | cons a as ih =>
    rw [List.cons_append, insAfter, if_pos (h a (by simp))]
    rw [ih fun y hy => h y (by simp [hy])]
    rfl

theorem next_item_is_max {q : List QueueItem} {d : QueueItem}
    (hq : List.Pairwise keyLE q) (hd : next_item q = some d) :
    d ∈ q ∧ d.status = "queued" ∧ ∀ j ∈ q, j.status = "queued" → keyLE d j := by
  induction q with
  | nil => simp [next_item] at hd
  | cons h t ih =>
    rw [List.pairwise_cons] at hq
    obtain ⟨hh, ht⟩ := hq
    by_cases hs : h.status = "queued"
    · rw [next_item, List.filter_cons_of_pos (by simp [hs])] at hd
      rw [List.head?_cons, Option.some_inj] at hd
      subst hd
      refine ⟨by simp, hs, ?_⟩
      intro j hj _
      cases hj with
      | head => exact keyLE_refl _
      | tail _ hj => exact hh j hj
    · rw [next_item, List.filter_cons_of_neg (by simp [hs])] at hd
      obtain ⟨hmem, hst, hmax⟩ := ih ht hd
      refine ⟨by simp [hmem], hst, ?_⟩
      intro j hj hjs
      cases hj with
      | head => exact absurd hjs hs
      | tail _ hj => exact hmax j hj hjs

/-- C4 (confirmed): every queue produced by add_to_queue is sorted by
(priority descending, created_at ascending); on a sorted queue the item
process_queue dispatches is a queued item that is maximal in that order
among all queued items; an item enqueued after a key-equal one lands
strictly behind it (stable FIFO tie-break); and the dispatched item is the
first queued item in queue order, so of two queued items the earlier-placed
one is dispatched first. -/
theorem c4_scheduler_order :
    (∀ q it, List.Pairwise keyLE (add_to_queue q it)) ∧
      (∀ q d, List.Pairwise keyLE q → next_item q = some d →
        d ∈ q ∧ d.status = "queued" ∧ ∀ j ∈ q, j.status = "queued" → keyLE d j) ∧
      (∀ q J1 J2, List.Pairwise keyLE q → keyLE J1 J2 → keyLE J2 J1 →
        ∃ l1 l2 l3, add_to_queue (add_to_queue q J1) J2 = l1 ++ J1 :: l2 ++ J2 :: l3) ∧
      (∀ l1 J1 l2 J2 l3, J1.status = "queued" → (∀ e ∈ l1, e.status ≠ "queued") →
        next_item (l1 ++ J1 :: l2 ++ J2 :: l3) = some J1) := by
  refine ⟨?_, ?_, ?_, ?_⟩
  · intro q it
    exact pairwise_sortQueue (q ++ [it])
  · intro q d hq hd
    exact next_item_is_max hq hd
  · intro q J1 J2 hq h12 h21
    rw [show add_to_queue q J1 = insAfter J1 q from sortQueue_append_singleton J1 hq]
    have hsorted : List.Pairwise keyLE (insAfter J1 q) := by
      rw [← sortQueue_append_singleton J1 hq]
      exact pairwise_sortQueue _
    rw [show add_to_queue (insAfter J1 q) J2 = insAfter J2 (insAfter J1 q) from
      sortQueue_append_singleton J2 hsorted]
    obtain ⟨u, v, hu, hall⟩ := insAfter_decomp J1 q
    rw [hu]
    have hA : ∀ y ∈ u ++ [J1], keyLE y J2 := by
      intro y hy
      rw [List.mem_append] at hy
      cases hy with
      | inl hy => exact keyLE_trans (hall y hy) h12
      | inr hy =>
        rw [List.mem_singleton] at hy
        exact hy ▸ h12
    have : u ++ J1 :: v = (u ++ [J1]) ++ v := by simp
    rw [this, insAfter_append hA]
    obtain ⟨u', v', hu', _⟩ := insAfter_decomp J2 v
    rw [hu']
    exact ⟨u, u', v', by simp⟩
  · intro l1 J1 l2 J2 l3 h1 h0
    rw [next_item, List.filter_append, List.filter_append]
    rw [List.filter_eq_nil_iff.mpr (fun a ha => by simp [h0 a ha])]
    rw [List.filter_cons_of_pos (by simp [h1])]
    rfl

/-- Sample queue items used in concrete witnesses: a high-priority queued
job, two ordinary queued jobs and a processing job. -/
def jHigh : QueueItem :=
  { id := "a", user_id := 1, file_path := "a.epub", file_size := 10,
    priority := 3, status := "queued", created_at := 7 }

def jLow : QueueItem :=
  { id := "b", user_id := 2, file_path := "b.epub", file_size := 10,
    priority := 1, status := "queued", created_at := 1 }

def jProc : QueueItem :=
  { id := "c", user_id := 3, file_path := "c.epub", file_size := 10,
    priority := 2, status := "processing", created_at := 2 }

def jTie1 : QueueItem :=
  { id := "d", user_id := 4, file_path := "d.epub", file_size := 10,
    priority := 2, status := "queued", created_at := 5 }

def jTie2 : QueueItem :=
  { id := "e", user_id := 5, file_path := "e.epub", file_size := 10,
    priority := 2, status := "queued", created_at := 5 }

/-- Witness for C4 at concrete inputs: on the sorted queue [jHigh, jLow] the
dispatched item is the priority-3 job and it dominates every queued item;
enqueueing the key-equal jTie1 then jTie2 into the empty queue places jTie1
ahead; and with a processing item ahead of two queued ones the first queued
item is dispatched. -/
theorem c4_scheduler_order_witness :
    (jHigh ∈ [jHigh, jLow] ∧ jHigh.status = "queued" ∧
        ∀ j ∈ [jHigh, jLow], j.status = "queued" → keyLE jHigh j) ∧
      (∃ l1 l2 l3, add_to_queue (add_to_queue [] jTie1) jTie2 =
        l1 ++ jTie1 :: l2 ++ jTie2 :: l3) ∧
      next_item ([jProc] ++ jTie1 :: [] ++ jTie2 :: []) = some jTie1 := by
  obtain ⟨ha, hb, hc, hd⟩ := c4_scheduler_order
  refine ⟨hb [jHigh, jLow] jHigh (by decide) (by decide), ?_, ?_⟩
  · exact hc [] jTie1 jTie2 (by decide) (by decide) (by decide)
  · exact hd [jProc] jTie1 [] jTie2 [] (by decide) (by decide)

/-- load_queue (src/plugins/queue_plugin.py lines 212-221): the persisted
records are parsed back field by field into QueueItem(**item); no field — in
particular no status — is inspected, filtered or rewritten on reload. -/
def load_queue (data : List QueueItem) : List QueueItem := data

/-- C7 (corrected): reloading the persisted job table keeps every record,
statuses included, exactly as stored — a record saved with status
"processing" is still "processing" after reload, not "failed"; such a
record is however never dispatched again, because dispatch only ever picks a
record whose status is "queued". -/
theorem c7_reload_keeps_status (data : List QueueItem) :
    load_queue data = data ∧
      (∀ d, next_item (load_queue data) = some d → d.status = "queued") := by
  refine ⟨rfl, ?_⟩
  intro d hd
  rw [next_item] at hd
  cases hf : (load_queue data).filter (fun it => it.status == "queued") with
  | nil => rw [hf] at hd; cases hd
  | cons a t =>
    rw [hf] at hd
    rw [List.head?_cons, Option.some_inj] at hd
    have ha : a ∈ (load_queue data).filter (fun it => it.status == "queued") := by
      rw [hf]; simp
    have h2 := (List.mem_filter.mp ha).2
    rw [hd] at h2
    simpa using h2

/-- C7 counterexample to the claim as stated: a record reloaded with status
"processing" still has status "processing", which is not "failed". -/
theorem c7_counterexample :
    (load_queue [jProc]).map QueueItem.status = ["processing"] ∧
      ("processing" : String) ≠ "failed" :=
  ⟨rfl, by decide⟩

/-- Witness for C7 at concrete inputs: reloading [jProc, jTie1] changes
nothing, and the dispatched item of the reloaded table is queued. -/
theorem c7_reload_keeps_status_witness :
    load_queue [jProc, jTie1] = [jProc, jTie1] ∧ jTie1.status = "queued" := by
  obtain ⟨h1, h2⟩ := c7_reload_keeps_status [jProc, jTie1]
  exact ⟨h1, h2 jTie1 (by decide)⟩

/-- cancel_item (src/plugins/queue_plugin.py lines 193-210): scan the queue
for an item with the given id owned by the given user; a "queued" match is
set to "cancelled" and True is returned, a "processing" match stops the scan
with False, and a match in any other status lets the scan continue; if no
match decides, False is returned and nothing is modified. -/
def cancel_item : List QueueItem → String → Nat → Bool × List QueueItem
  | [], _, _ => (false, [])
  | it :: rest, item_id, user_id =>
    if it.id = item_id ∧ it.user_id = user_id then
      if it.status = "queued" then (true, { it with status := "cancelled" } :: rest)
      else if it.status = "processing" then (false, it :: rest)
      else ((cancel_item rest item_id user_id).1, it :: (cancel_item rest item_id user_id).2)
    else ((cancel_item rest item_id user_id).1, it :: (cancel_item rest item_id user_id).2)

/-- C8 (confirmed): cancel_item changes a record only from "queued" to
"cancelled" (position by position every record is either untouched or was
"queued" and became "cancelled"); whenever it returns false the queue is
completely unchanged; and when every matching record is "processing" it
returns false with the queue unchanged — a processing job never becomes
cancelled. -/
theorem c8_cancel_only_queued (q : List QueueItem) (item_id : String) (user_id : Nat) :
    (∀ i, ((cancel_item q item_id user_id).2.get? i = q.get? i) ∨
        (∃ it, q.get? i = some it ∧ it.status = "queued" ∧
          (cancel_item q item_id user_id).2.get? i =
            some { it with status := "cancelled" })) ∧
      ((cancel_item q item_id user_id).1 = false →
        (cancel_item q item_id user_id).2 = q) ∧
      ((∀ it ∈ q, it.id = item_id → it.user_id = user_id → it.status = "processing") →
        cancel_item q item_id user_id = (false, q)) := by
  induction q with
  | nil => exact ⟨fun i => Or.inl rfl, fun _ => rfl, fun _ => rfl⟩
  | cons it rest ih =>
    obtain ⟨ih1, ih2, ih3⟩ := ih
    by_cases hm : it.id = item_id ∧ it.user_id = user_id
    · by_cases hqd : it.status = "queued"
      · refine ⟨?_, ?_, ?_⟩
        · intro i
          cases i with
          | zero =>
            right
            refine ⟨it, rfl, hqd, ?_⟩
            rw [cancel_item, if_pos hm, if_pos hqd]
            rfl
          | succ n =>
            left
            rw [cancel_item, if_pos hm, if_pos hqd]
            rfl
        · intro hfalse
          rw [cancel_item, if_pos hm, if_pos hqd] at hfalse
          cases hfalse
        · intro hall
          have hcontra := hall it (by simp) hm.1 hm.2
          rw [hqd] at hcontra
          exact absurd hcontra (by decide)
      · by_cases hpr : it.status = "processing"
        · refine ⟨?_, ?_, ?_⟩
          · intro i
            left
            rw [cancel_item, if_pos hm, if_neg hqd, if_pos hpr]
          · intro _
            rw [cancel_item, if_pos hm, if_neg hqd, if_pos hpr]
          · intro _
            rw [cancel_item, if_pos hm, if_neg hqd, if_pos hpr]
        · refine ⟨?_, ?_, ?_⟩
          · intro i
            cases i with
            | zero =>
              left
              rw [cancel_item, if_pos hm, if_neg hqd, if_neg hpr]
              rfl
            | succ n =>
              rw [cancel_item, if_pos hm, if_neg hqd, if_neg hpr]
              exact ih1 n
          · intro hfalse
            rw [cancel_item, if_pos hm, if_neg hqd, if_neg hpr] at hfalse ⊢
            rw [ih2 hfalse]
          · intro hall
            have := hall it (by simp) hm.1 hm.2
            exact absurd this hpr
    · refine ⟨?_, ?_, ?_⟩
      · intro i
        cases i with
        | zero =>
          left
          rw [cancel_item, if_neg hm]
          rfl
        | succ n =>
          rw [cancel_item, if_neg hm]
          exact ih1 n
      · intro hfalse
        rw [cancel_item, if_neg hm] at hfalse ⊢
        rw [ih2 hfalse]
      · intro hall
        rw [cancel_item, if_neg hm]
        rw [ih3 fun j hj => hall j (by simp [hj])]

/-- Witness for C8 at concrete inputs: cancelling the processing job jProc
by its own id and owner returns false and leaves the queue unchanged. -/
theorem c8_cancel_only_queued_witness :
    cancel_item [jProc] "c" 3 = (false, [jProc]) := by
  obtain ⟨h1, h2, h3⟩ := c8_cancel_only_queued [jProc] "c" 3
  exact h3 (by decide)

theorem splitDotSpace_dot_space (rest : List Char) :
    splitDotSpace ('.' :: ' ' :: rest) = [] :: splitDotSpace rest := by
  rw [splitDotSpace, if_pos (And.intro rfl rfl)]

theorem splitDotSpace_cons_of_ne {a b : Char} {rest s : List Char}
    {ss : List (List Char)} (h : ¬(a = '.' ∧ b = ' '))
    (hs : splitDotSpace (b :: rest) = s :: ss) :
    splitDotSpace (a :: b :: rest) = (a :: s) :: ss := by
  rw [splitDotSpace, if_neg h, hs]

theorem split_rep (n : Nat) :
    splitDotSpace (List.replicate n 'a') = [List.replicate n 'a'] := by
  induction n with
  | zero => rfl
  | succ m ih =>
    cases m with
    | zero => rfl
    | succ k =>
      have hstep : List.replicate (k + 1 + 1) 'a' = 'a' :: 'a' :: List.replicate k 'a' := by
        simp [List.replicate_succ]
      rw [hstep]
      have ih2 : splitDotSpace ('a' :: List.replicate k 'a') = ['a' :: List.replicate k 'a'] := by
        have he : ('a' :: List.replicate k 'a') = List.replicate (k + 1) 'a' := by
          simp [List.replicate_succ]
        rw [he, ih]
      exact splitDotSpace_cons_of_ne (by decide) ih2

theorem split_rep_lead (n : Nat) (rest : List Char) :
    splitDotSpace (List.replicate n 'a' ++ '.' :: ' ' :: rest) =
      List.replicate n 'a' :: splitDotSpace rest := by
  induction n with
  | zero =>
    simp only [List.replicate, List.nil_append]
    exact splitDotSpace_dot_space rest
  | succ m ih =>
    rw [List.replicate_succ, List.cons_append]
    cases m with
    | zero =>
      simp only [List.replicate, List.nil_append]
      exact splitDotSpace_cons_of_ne (by decide) (splitDotSpace_dot_space rest)
    | succ k =>
      have hx : List.replicate (k + 1) 'a' ++ '.' :: ' ' :: rest =
          'a' :: (List.replicate k 'a' ++ '.' :: ' ' :: rest) := by
        simp [List.replicate_succ]
      rw [hx] at ih ⊢
      exact splitDotSpace_cons_of_ne (by decide) ih

theorem dropWhile_rep_dot_space (n : Nat) :
    (List.replicate n 'a' ++ ['.', ' ']).dropWhile pyWs =
      List.replicate n 'a' ++ ['.', ' '] := by
  cases n with
  | zero => simp [pyWs, List.dropWhile]
  | succ m =>
    rw [List.replicate_succ, List.cons_append, List.dropWhile_cons_of_neg (by decide)]

theorem strip_rep_dot (n : Nat) :
    strip (List.replicate n 'a' ++ ['.', ' ']) = List.replicate n 'a' ++ ['.'] := by
  unfold strip
  rw [dropWhile_rep_dot_space]
  rw [List.reverse_append, List.reverse_replicate]
  show ((' ' :: '.' :: List.replicate n 'a').dropWhile pyWs).reverse =
    List.replicate n 'a' ++ ['.']
  rw [List.dropWhile_cons_of_pos (by decide), List.dropWhile_cons_of_neg (by decide)]
  rw [List.reverse_cons, List.reverse_replicate]

theorem rep_dot_space_ne_nil (n : Nat) : List.replicate n 'a' ++ ['.', ' '] ≠ [] := by
  apply List.ne_nil_of_length_pos
  simp

theorem rep_dot_space_length (n : Nat) :
    (List.replicate n 'a' ++ ['.', ' ']).length = n + 2 := by
  simp

theorem rep_dot_length (n : Nat) : (List.replicate n 'a' ++ ['.']).length = n + 1 := by
  simp

theorem buildChunks_step_first (s : List Char) (rest : List (List Char))
    (h : s.length > 3000) :
    buildChunks (s :: rest) [] = buildChunks rest s := by
  rw [buildChunks, if_pos (by simpa using h), if_pos rfl]

theorem buildChunks_step_over (s current : List Char) (rest : List (List Char))
    (h : (current ++ s).length > 3000) (hc : current ≠ []) :
    buildChunks (s :: rest) current = strip current :: buildChunks rest s := by
  rw [buildChunks, if_pos h, if_neg hc]

theorem buildChunks_final {current : List Char} (hc : current ≠ []) :
    buildChunks [] current = [strip current] := by
  rw [buildChunks, if_neg hc]

theorem slice2500_step {l : List Char} (h : l ≠ []) :
    slice2500 l = l.take 2500 :: slice2500 (l.drop 2500) := by
  cases l with
  | nil => exact absurd rfl h
  | cons c t => rw [slice2500]

theorem slice_rep_dot_big {n : Nat} (h : 2500 ≤ n) :
    slice2500 (List.replicate n 'a' ++ ['.']) =
      List.replicate 2500 'a' :: slice2500 (List.replicate (n - 2500) 'a' ++ ['.']) := by
  have htake : (List.replicate n 'a' ++ ['.']).take 2500 = List.replicate 2500 'a' := by
    rw [List.take_append_of_le_length (by simpa using h), List.take_replicate]
    rw [show min 2500 n = 2500 from by omega]
  have hdrop : (List.replicate n 'a' ++ ['.']).drop 2500 =
      List.replicate (n - 2500) 'a' ++ ['.'] := by
    rw [List.drop_append_of_le_length (by simpa using h), List.drop_replicate]
  rw [slice2500_step (by simp), htake, hdrop]

theorem slice_rep_dot_small {n : Nat} (h : n < 2500) :
    slice2500 (List.replicate n 'a' ++ ['.']) = [List.replicate n 'a' ++ ['.']] := by
  rw [slice2500_step (by simp)]
  rw [List.take_of_length_le (by simp; omega), List.drop_of_length_le (by simp; omega)]
  simp [slice2500]

theorem final_chunks_rep6000 :
    final_chunks (List.replicate 6000 'a') =
      [List.replicate 2500 'a', List.replicate 2500 'a',
        List.replicate 1000 'a' ++ ['.']] := by
  unfold final_chunks
  rw [split_rep]
  simp only [List.map_cons, List.map_nil]
  rw [buildChunks_step_first (List.replicate 6000 'a' ++ ['.', ' ']) []
    (by rw [rep_dot_space_length]; norm_num)]
  rw [buildChunks_final (rep_dot_space_ne_nil 6000)]
  rw [strip_rep_dot, List.map_cons, List.map_nil]
  rw [if_pos (by rw [rep_dot_length]; norm_num :
    (List.replicate 6000 'a' ++ ['.']).length > 5000)]
  rw [List.flatten_cons, List.flatten_nil, List.append_nil]
  rw [slice_rep_dot_big (by norm_num)]
  rw [show (6000 : Nat) - 2500 = 3500 from by norm_num]
  rw [slice_rep_dot_big (by norm_num)]
  rw [show (3500 : Nat) - 2500 = 1000 from by norm_num]
  rw [slice_rep_dot_small (by norm_num)]

/-- Concrete 12000-character input with clean sentence boundaries: four
sentences of 2999, 2999, 2998 and 2998 characters separated by ". ". -/
def t12 : List Char :=
  List.replicate 2999 'a' ++ '.' :: ' ' ::
    (List.replicate 2999 'a' ++ '.' :: ' ' ::
      (List.replicate 2998 'a' ++ '.' :: ' ' :: List.replicate 2998 'a'))

theorem t12_length : t12.length = 12000 := by
  unfold t12
  simp only [List.length_append, List.length_cons, List.length_replicate]

theorem split_t12 :
    splitDotSpace t12 =
      [List.replicate 2999 'a', List.replicate 2999 'a',
        List.replicate 2998 'a', List.replicate 2998 'a'] := by
  unfold t12
  rw [split_rep_lead, split_rep_lead, split_rep_lead, split_rep]

theorem final_chunks_t12 :
    final_chunks t12 =
      [List.replicate 2999 'a' ++ ['.'], List.replicate 2999 'a' ++ ['.'],
        List.replicate 2998 'a' ++ ['.'], List.replicate 2998 'a' ++ ['.']] := by
  unfold final_chunks
  rw [split_t12]
  simp only [List.map_cons, List.map_nil]
  rw [buildChunks_step_first (List.replicate 2999 'a' ++ ['.', ' '])
    [List.replicate 2999 'a' ++ ['.', ' '], List.replicate 2998 'a' ++ ['.', ' '],
      List.replicate 2998 'a' ++ ['.', ' ']]
    (by rw [rep_dot_space_length]; norm_num)]
  rw [buildChunks_step_over (List.replicate 2999 'a' ++ ['.', ' '])
    (List.replicate 2999 'a' ++ ['.', ' '])
    [List.replicate 2998 'a' ++ ['.', ' '], List.replicate 2998 'a' ++ ['.', ' ']]
    (by simp only [List.length_append, rep_dot_space_length]; norm_num)
    (rep_dot_space_ne_nil 2999)]
  rw [buildChunks_step_over (List.replicate 2998 'a' ++ ['.', ' '])
    (List.replicate 2999 'a' ++ ['.', ' '])
    [List.replicate 2998 'a' ++ ['.', ' ']]
    (by simp only [List.length_append, rep_dot_space_length]; norm_num)
    (rep_dot_space_ne_nil 2999)]
  rw [buildChunks_step_over (List.replicate 2998 'a' ++ ['.', ' '])
    (List.replicate 2998 'a' ++ ['.', ' ']) []
    (by simp only [List.length_append, rep_dot_space_length]; norm_num)
    (rep_dot_space_ne_nil 2998)]
  rw [buildChunks_final (rep_dot_space_ne_nil 2998)]
  rw [strip_rep_dot, strip_rep_dot]
  simp only [List.map_cons, List.map_nil]
  rw [if_neg (by rw [rep_dot_length]; norm_num :
    ¬(List.replicate 2999 'a' ++ ['.']).length > 5000)]
  rw [if_neg (by rw [rep_dot_length]; norm_num :
    ¬(List.replicate 2998 'a' ++ ['.']).length > 5000)]
  rw [List.flatten_cons, List.flatten_cons, List.flatten_cons, List.flatten_cons,
    List.flatten_nil]
  rfl

/-- C10 (corrected): the concrete splitting scenarios, as the code computes
them. A 12000-character input made of four ". "-separated sentences of
lengths 2999, 2999, 2998 and 2998 splits into exactly 4 chunks of lengths
3000, 3000, 2999 and 2999 — each at most 3000. A single 6000-character
sentence with no ". " delimiter is force-sliced into 3 pieces of lengths
2500, 2500 and 1001: the restored "." appended after the final segment rides
along, so the last slice has 1001 characters, not 1000. -/
theorem c10_concrete_scenarios :
    t12.length = 12000 ∧
      (final_chunks t12).map List.length = [3000, 3000, 2999, 2999] ∧
      (List.replicate 6000 'a').length = 6000 ∧
      (final_chunks (List.replicate 6000 'a')).map List.length = [2500, 2500, 1001] := by
  refine ⟨t12_length, ?_, by rw [List.length_replicate], ?_⟩
  · rw [final_chunks_t12]
    simp only [List.map_cons, List.map_nil, rep_dot_length]
  · rw [final_chunks_rep6000]
    simp only [List.map_cons, List.map_nil, rep_dot_length, List.length_replicate]

/-- C10 counterexample to the claim as stated: the 6000-character single
"sentence" is sliced into pieces of lengths 2500, 2500 and 1001 — not
2500, 2500 and 1000 — because the splitter appends the restored "."
delimiter to the sentence before slicing. -/
theorem c10_counterexample :
    (final_chunks (List.replicate 6000 'a')).map List.length = [2500, 2500, 1001] ∧
      ([2500, 2500, 1001] : List Nat) ≠ [2500, 2500, 1000] := by
  constructor
  · rw [final_chunks_rep6000]
    simp only [List.map_cons, List.map_nil, rep_dot_length, List.length_replicate]
  · decide

